import Mathlib

set_option maxHeartbeats 1000000

/-!
Formal model of the `ipfs_factory` repository.

The development shallowly embeds the tree synchronizer of `src/ipfs.rs`
(`patch_root_object`, `ipfs_add`, `IPFSObject::get`, `IPFSObject::add_link`)
and the CLI entry point of `src/main.rs`.  Content addresses (`cid::Cid`) are
modelled as natural numbers, the content-addressed store (reached through the
`ipfs` subprocess in the source) as a record of pure functions, and the local
filesystem as an inductive tree.  Every store interaction is recorded in a
trace of events so that claims about uploads, patches and warnings can be
stated as properties of the trace.
-/

/-- Content address (`cid::Cid` in the source), modelled as an opaque number. -/
abbrev Cid := Nat

/-- Error values (`anyhow::Error` in the source). -/
abbrev Err := String

/-- `IPFSLink` from `src/ipfs.rs`: a named, content-addressed link. -/
structure IPFSLink where
  name : String
  hash : Cid
  size : Nat
deriving DecidableEq, Repr

/-- `IPFSObject` from `src/ipfs.rs`: a directory object; `hash` is the
`#[serde(skip)]` field holding the cid the object was fetched from. -/
structure IPFSObject where
  links : List IPFSLink
  hash : Option Cid
deriving DecidableEq, Repr

/-- A local filesystem tree: a file with abstract byte content, or a
directory with named entries (what `read_dir` enumerates). -/
inductive FSTree where
| file (content : Nat) : FSTree
| dir (entries : List (String × FSTree)) : FSTree

/-- Observable interactions of the synchronizer with the `ipfs` daemon and
the terminal: object fetches, uploads (with their full argument list),
patches, and drift warnings. -/
inductive Event where
| get (c : Cid) : Event
| add (args : List String) (result : Cid) : Event
| patch (parent : Cid) (name : String) (child : Cid) : Event
| warn (name : String) : Event
deriving DecidableEq, Repr

/-- The content-addressed store, abstracting the three `ipfs` subcommands the
source shells out to: `ipfs object get`, `ipfs object patch add-link`, and
`ipfs add`.  The store is immutable (content-addressed), so each operation is
a pure function; `addFn` maps the uploaded content (and the recursive flag)
to the store's answer. -/
structure Store where
  getLinks : Cid → Except Err (List IPFSLink)
  patchLink : Cid → String → Cid → Except Err Cid
  addFn : FSTree → Bool → Except Err Cid

/-- Characters after the last `.` of a character list, if any dot occurs. -/
def extAux : List Char → Option (List Char)
| [] => none
| c :: rest =>
  match extAux rest with
  | some e => some e
  | none => if c = '.' then some rest else none

/-- Extension of a file name, mirroring Rust's `Path::extension`: the part
after the last `.`, none when there is no dot or the only dot is the leading
one (hidden files), with `..` having no extension. -/
def extensionOf (name : String) : Option String :=
  if name = ".." then none
  else
    match name.data with
    | [] => none
    | _ :: rest =>
      match extAux rest with
      | none => none
      | some e => some (String.mk e)

/-- The skip test of `patch_root_object` lines 105-110: the extension exists
and is `ogg` or `flac`. -/
def isSkipExt (name : String) : Bool :=
  match extensionOf name with
  | some ext => ext == "ogg" || ext == "flac"
  | none => false

/-- The argument list built by `ipfs_add` (src/ipfs.rs lines 71-79):
`ipfs add --pin=false -Q <path>` plus `-r` when `is_folder` is set. -/
def ipfsAddArgs (path : List String) (isFolder : Bool) : List String :=
  ["add", "--pin=false", "-Q", String.intercalate "/" path]
    ++ (if isFolder then ["-r"] else [])

/-- Model of `ipfs_add`: runs `ipfs add` on the content found at `path`,
recording the invocation in the trace on success. -/
def ipfs_add (s : Store) (path : List String) (t : FSTree) (isFolder : Bool) :
    List Event × Except Err Cid :=
  match s.addFn t isFolder with
  | .error e => ([], .error e)
  | .ok c => ([Event.add (ipfsAddArgs path isFolder) c], .ok c)

/-- Model of `IPFSObject::get`: fetch the links at a cid and remember that
cid in the object's `hash` field. -/
def IPFSObject.getObj (s : Store) (c : Cid) : List Event × Except Err IPFSObject :=
  match s.getLinks c with
  | .error e => ([], .error e)
  | .ok links => ([Event.get c], .ok ⟨links, some c⟩)

/-- Model of `IPFSObject::add_link`: patch the object's own cid (unwrapped
from `hash`) with one link and re-fetch the resulting object. -/
def IPFSObject.add_link (s : Store) (obj : IPFSObject) (name : String) (child : Cid) :
    List Event × Except Err IPFSObject :=
  match obj.hash with
  | none => ([], .error "unwrap of missing hash")
  | some h =>
    match s.patchLink h name child with
    | .error e => ([], .error e)
    | .ok newCid =>
      match s.getLinks newCid with
      | .error e => ([Event.patch h name child], .error e)
      | .ok links =>
        ([Event.patch h name child, Event.get newCid], .ok ⟨links, some newCid⟩)

/-- Model of `IPFSObject::cid`: unwrap the stored cid. -/
def IPFSObject.cidOf (obj : IPFSObject) : Cid := obj.hash.getD 0

/-- The warning loop of `patch_root_object` lines 143-149: for every link of
the current root object whose name has no entry on the local filesystem,
emit a warning.  A pure function of the final links and the local entries. -/
def driftWarnings (links : List IPFSLink) (entries : List (String × FSTree)) :
    List Event :=
  (links.filter (fun l => !(entries.any (fun e => e.1 == l.name)))).map
    (fun l => Event.warn l.name)

mutual

/-- Model of `patch_root_object` (src/ipfs.rs lines 94-153): fetch the root
object, process each local entry in order, emit drift warnings, and return
the final root cid. -/
def patch_root_object (s : Store) (dirPath : List String) (tree : FSTree)
    (rootHash : Cid) : List Event × Except Err Cid :=
  match IPFSObject.getObj s rootHash with
  | (evs, .error e) => (evs, .error e)
  | (evs, .ok obj0) =>
    match tree with
    | .file _ => (evs, .error "read_dir failed: not a directory")
    | .dir entries =>
      match processEntries s dirPath entries obj0 with
      | (evs2, .error e) => (evs ++ evs2, .error e)
      | (evs2, .ok objF) =>
        (evs ++ evs2 ++ driftWarnings objF.links entries, .ok objF.cidOf)
termination_by (sizeOf tree, 0)

/-- The `for local_link in root_dir.read_dir()?` loop of `patch_root_object`,
threading the current root object through the entries. -/
def processEntries (s : Store) (dirPath : List String)
    (entries : List (String × FSTree)) (obj : IPFSObject) :
    List Event × Except Err IPFSObject :=
  match entries with
  | [] => ([], .ok obj)
  | (n, sub) :: rest =>
    match processEntry s dirPath n sub obj with
    | (evs, .error e) => (evs, .error e)
    | (evs, .ok obj1) =>
      match processEntries s dirPath rest obj1 with
      | (evs2, r) => (evs ++ evs2, r)
termination_by (sizeOf entries, 2)

/-- One iteration of the loop body of `patch_root_object` (lines 100-140):
look up the matching remote link, apply the ogg/flac skip rule, then
dispatch on file vs directory. -/
def processEntry (s : Store) (dirPath : List String) (n : String) (sub : FSTree)
    (obj : IPFSObject) : List Event × Except Err IPFSObject :=
  let path := dirPath ++ [n]
  let maybeLink := obj.links.find? (fun l => l.name == n)
  if isSkipExt n && maybeLink.isSome then
    ([], .ok obj)
  else
    match sub with
    | .file c =>
      match maybeLink with
      | some link =>
        match ipfs_add s path (FSTree.file c) false with
        | (evs, .error e) => (evs, .error e)
        | (evs, .ok newCid) =>
          if newCid = link.hash then
            (evs, .ok obj)
          else
            match IPFSObject.add_link s obj link.name newCid with
            | (evs2, r) => (evs ++ evs2, r)
      | none =>
        match ipfs_add s path (FSTree.file c) true with
        | (evs, .error e) => (evs, .error e)
        | (evs, .ok newCid) =>
          match IPFSObject.add_link s obj n newCid with
          | (evs2, r) => (evs ++ evs2, r)
    | .dir subs =>
      match maybeLink with
      | some link =>
        match patch_root_object s path (FSTree.dir subs) link.hash with
        | (evs, .error e) => (evs, .error e)
        | (evs, .ok newCid) =>
          if newCid = link.hash then
            (evs, .ok obj)
          else
            match IPFSObject.add_link s obj link.name newCid with
            | (evs2, r) => (evs ++ evs2, r)
      | none =>
        match ipfs_add s path (FSTree.dir subs) true with
        | (evs, .error e) => (evs, .error e)
        | (evs, .ok newCid) =>
          match IPFSObject.add_link s obj n newCid with
          | (evs2, r) => (evs ++ evs2, r)
termination_by (sizeOf sub, 1)

end

/-! ## Model of the CLI entry point (`src/main.rs`) -/

/-- The argument names registered with the `clap::App` builder in `main`
(src/main.rs lines 322-341): `input` and `data-dir` only. -/
def registeredArgs : List String := ["input", "data-dir"]

/-- Possible outcomes of running `main`. -/
inductive MainOutcome where
| cliError : MainOutcome
| panicked (msg : String) : MainOutcome
| fail (e : Err) : MainOutcome
| ok : MainOutcome
deriving DecidableEq, Repr

/-- `ArgMatches::values_of` in clap 2.x: looking up a name that was never
registered with the parser returns `None`, whatever the user typed. -/
def clapValuesOf (provided : String → Option (List String)) (name : String) :
    Option (List String) :=
  if name ∈ registeredArgs then provided name else none

/-- The `for root in matches.values_of("dir").unwrap()` loop of `main`
(src/main.rs lines 352-355): process each directory, aborting on the first
error.  Returns the list of directories actually handed to `process`. -/
def processDirs (processResult : String → Except Err Unit) :
    List String → List String × MainOutcome
  | [] => ([], MainOutcome.ok)
  | d :: rest =>
    match processResult d with
    | .error e => ([d], MainOutcome.fail e)
    | .ok _ =>
      match processDirs processResult rest with
      | (ds, r) => (d :: ds, r)

/-- Model of `main` (src/main.rs lines 321-358).  `provided` holds the values
the user passed for each registered argument, `inputExists` the result of
the `season_json_path.exists()` check, `validated` the result of
`get_validated_json`, and `processResult` abstracts `process`.  The pair
returned is (directories processed, outcome). -/
def mainRun (provided : String → Option (List String)) (inputExists : Bool)
    (validated : Except Err Unit) (processResult : String → Except Err Unit) :
    List String × MainOutcome :=
  if (clapValuesOf provided "input").isNone
      || (clapValuesOf provided "data-dir").isNone then
    ([], MainOutcome.cliError)
  else
    match clapValuesOf provided "input" with
    | none => ([], MainOutcome.panicked "Missing --input argument")
    | some _ =>
      if !inputExists then
        ([], MainOutcome.fail "Input file does not exist")
      else
        match validated with
        | .error e => ([], MainOutcome.fail e)
        | .ok _ =>
          match clapValuesOf provided "dir" with
          | none =>
            ([], MainOutcome.panicked "called Option::unwrap on a None value")
          | some dirs => processDirs processResult dirs

/-! ## Event classifiers and auxiliary predicates -/

/-- Whether an event is a patch call. -/
def Event.isPatch : Event → Bool
| .patch _ _ _ => true
| _ => false

/-- Whether an event is an upload. -/
def Event.isAdd : Event → Bool
| .add _ _ => true
| _ => false

/-- Whether an event is a drift warning. -/
def Event.isWarn : Event → Bool
| .warn _ => true
| _ => false

/-- Well-formed local tree: entry names are unique at every level, as a real
filesystem guarantees for `read_dir`. -/
inductive WFTree : FSTree → Prop where
| file {c : Nat} : WFTree (FSTree.file c)
| dir {entries : List (String × FSTree)} :
    (entries.map Prod.fst).Nodup →
    (∀ n sub, (n, sub) ∈ entries → WFTree sub) →
    WFTree (FSTree.dir entries)

/-- The in-memory object agrees with the store: its remembered cid resolves
to exactly its link list.  Holds for every object produced by
`IPFSObject.getObj` or `IPFSObject.add_link`. -/
def StoreInv (s : Store) (obj : IPFSObject) : Prop :=
  ∃ h, obj.hash = some h ∧ s.getLinks h = .ok obj.links

/-- A remote directory object mirrors a local tree: every local entry has a
link of the same name, and (unless the entry falls under the ogg/flac skip
rule) a file's link target is what uploading the file again would return,
while a directory's link target recursively mirrors the subtree. -/
inductive Synced (s : Store) : Cid → FSTree → Prop where
| dir {a : Cid} {entries : List (String × FSTree)} {links : List IPFSLink} :
    s.getLinks a = .ok links →
    (∀ n sub, (n, sub) ∈ entries →
      (links.find? (fun l => l.name == n)).isSome = true) →
    (∀ n c link, (n, FSTree.file c) ∈ entries →
      links.find? (fun l => l.name == n) = some link →
      isSkipExt n = false → s.addFn (FSTree.file c) false = .ok link.hash) →
    (∀ n subs link, (n, FSTree.dir subs) ∈ entries →
      links.find? (fun l => l.name == n) = some link →
      isSkipExt n = false → Synced s link.hash (FSTree.dir subs)) →
    Synced s a (FSTree.dir entries)

/-- Store contract of `ipfs object patch add-link` (spec §4.1): on success the
new object's link list is the old one with the named link replaced or
inserted — looked up by name, the patched name now resolves to the new
child, and every other name resolves as before. -/
def PatchCoherent (s : Store) : Prop :=
  ∀ c n h c' links, s.getLinks c = .ok links → s.patchLink c n h = .ok c' →
    ∃ links', s.getLinks c' = .ok links' ∧
      (∃ l, links'.find? (fun x => x.name == n) = some l ∧ l.hash = h) ∧
      (∀ m, m ≠ n →
        links'.find? (fun x => x.name == m) = links.find? (fun x => x.name == m))

/-- Store contract of `ipfs add` on single files: the recursive flag does not
change the resulting content address of a file. -/
def AddFlagCoherent (s : Store) : Prop :=
  ∀ c, s.addFn (FSTree.file c) true = s.addFn (FSTree.file c) false

/-- Store contract of `ipfs add -r` on directories: a successful tree upload
produces a remote object that mirrors the uploaded tree. -/
def TreeUploadCoherent (s : Store) : Prop :=
  ∀ subs c', s.addFn (FSTree.dir subs) true = .ok c' →
    Synced s c' (FSTree.dir subs)

/-- Goodness of one processed entry with respect to a link list: the entry
has a matching link, and unless the skip rule applies the link's target is
up to date (re-uploading the file yields the same address; a subtree's
target mirrors the subtree). -/
def EntryGood (s : Store) (links : List IPFSLink) (n : String) (sub : FSTree) :
    Prop :=
  ∃ link, links.find? (fun l => l.name == n) = some link ∧
    (isSkipExt n = false →
      match sub with
      | FSTree.file c => s.addFn (FSTree.file c) false = .ok link.hash
      | FSTree.dir subs => Synced s link.hash (FSTree.dir subs))

/-! ## Concrete fixtures used to exercise the theorems -/

/-- A small concrete store: cid 1 is the root object, cid 5 an empty
subdirectory, cid 101 the root after one patch; uploads hash a file's
content by adding 35; patches bump the parent cid by 100. -/
def S1 : Store := {
  getLinks := fun c =>
    if c = 1 then .ok [⟨"a.ogg", 5, 0⟩, ⟨"c.txt", 42, 0⟩, ⟨"gone.txt", 9, 3⟩]
    else if c = 5 then .ok []
    else if c = 101 then .ok [⟨"b.txt", 42, 7⟩]
    else .error "nf"
  patchLink := fun c _ _ => .ok (c + 100)
  addFn := fun t _ => match t with | .file c => .ok (c + 35) | .dir _ => .ok 77 }

/-- The link list that `S1` serves for cid 1. -/
def rootLinks : List IPFSLink :=
  [⟨"a.ogg", 5, 0⟩, ⟨"c.txt", 42, 0⟩, ⟨"gone.txt", 9, 3⟩]

/-- The root object of `S1` as fetched from cid 1. -/
def rootObj : IPFSObject := ⟨rootLinks, some 1⟩

/-- A store where every cid resolves to an empty directory and no mutation
ever succeeds.  Trivially satisfies all the store contracts. -/
def STrivial : Store := {
  getLinks := fun _ => .ok []
  patchLink := fun _ _ _ => .error "patch unsupported"
  addFn := fun _ _ => .error "add unsupported" }

/-- A store where every cid resolves to one link `gone.txt` and no mutation
ever succeeds: exercises the drift-warning phase. -/
def SDrift : Store := {
  getLinks := fun _ => .ok [⟨"gone.txt", 9, 3⟩]
  patchLink := fun _ _ _ => .error "patch unsupported"
  addFn := fun _ _ => .error "add unsupported" }

/-- A store where every operation fails: exercises error propagation. -/
def SErr : Store := {
  getLinks := fun _ => .error "boom"
  patchLink := fun _ _ _ => .error "boom"
  addFn := fun _ _ => .error "boom" }

/-! ## Basic lemmas about the primitive operations -/

lemma getObj_ok {s : Store} {c : Cid} {links : List IPFSLink}
    (h : s.getLinks c = .ok links) :
    IPFSObject.getObj s c = ([Event.get c], .ok ⟨links, some c⟩) := by
  simp [IPFSObject.getObj, h]

lemma getObj_err {s : Store} {c : Cid} {e : Err} (h : s.getLinks c = .error e) :
    IPFSObject.getObj s c = ([], .error e) := by
  simp [IPFSObject.getObj, h]

lemma ipfs_add_ok {s : Store} {t : FSTree} {b : Bool} {c : Cid}
    (h : s.addFn t b = .ok c) (p : List String) :
    ipfs_add s p t b = ([Event.add (ipfsAddArgs p b) c], .ok c) := by
  simp [ipfs_add, h]

lemma ipfs_add_err {s : Store} {t : FSTree} {b : Bool} {e : Err}
    (h : s.addFn t b = .error e) (p : List String) :
    ipfs_add s p t b = ([], .error e) := by
  simp [ipfs_add, h]

lemma add_link_ok {s : Store} {obj : IPFSObject} {n : String} {child : Cid}
    {h : Cid} {c' : Cid} {ls' : List IPFSLink}
    (hh : obj.hash = some h) (hp : s.patchLink h n child = .ok c')
    (hg : s.getLinks c' = .ok ls') :
    IPFSObject.add_link s obj n child =
      ([Event.patch h n child, Event.get c'], .ok ⟨ls', some c'⟩) := by
  simp [IPFSObject.add_link, hh, hp, hg]

/-- A successful `add_link` always records a patch event, and the returned
object again satisfies the store invariant. -/
lemma add_link_ok_shape {s : Store} {obj : IPFSObject} {n : String}
    {child : Cid} {evs : List Event} {obj' : IPFSObject}
    (h : IPFSObject.add_link s obj n child = (evs, .ok obj')) :
    ∃ hh c', obj.hash = some hh ∧ s.patchLink hh n child = .ok c'
      ∧ s.getLinks c' = .ok obj'.links ∧ obj'.hash = some c'
      ∧ evs = [Event.patch hh n child, Event.get c'] := by
  unfold IPFSObject.add_link at h
  cases hh : obj.hash with
  | none => simp [hh] at h
  | some hv =>
    simp only [hh] at h
    cases hp : s.patchLink hv n child with
    | error e => simp [hp] at h
    | ok c' =>
      simp only [hp] at h
      cases hg : s.getLinks c' with
      | error e => simp [hg] at h
      | ok ls' =>
        simp only [hg] at h
        obtain ⟨hevs, hobj⟩ := Prod.mk.injEq .. ▸ h
        have hobj' : IPFSObject.mk ls' (some c') = obj' := by
          exact Except.ok.inj hobj
        subst hobj'
        exact ⟨hv, c', rfl, hp, by simpa using hg, rfl, hevs.symm⟩

lemma add_link_inv {s : Store} {obj : IPFSObject} {n : String} {child : Cid}
    {evs : List Event} {obj' : IPFSObject}
    (h : IPFSObject.add_link s obj n child = (evs, .ok obj')) :
    StoreInv s obj' := by
  obtain ⟨hh, c', _, _, hg, hho, _⟩ := add_link_ok_shape h
  exact ⟨c', hho, hg⟩

/-- The size of an entry's subtree is smaller than the size of the
directory containing it. -/
lemma sizeOf_mem_lt {n : String} {sub : FSTree}
    {entries : List (String × FSTree)} (h : (n, sub) ∈ entries) :
    sizeOf sub < sizeOf (FSTree.dir entries) := by
  induction entries with
  | nil => cases h
  | cons hd tl ih =>
    rcases List.mem_cons.mp h with h1 | h1
    · subst h1; simp; omega
    · have := ih h1; simp at this ⊢; omega

lemma one_le_sizeOf (t : FSTree) : 1 ≤ sizeOf t := by
  cases t <;> simp

/-- In a link list with unique names, `find?` by the name of a member
returns that member. -/
lemma find_of_nodup_mem {links : List IPFSLink}
    (hnd : (links.map IPFSLink.name).Nodup) {link : IPFSLink}
    (hm : link ∈ links) :
    links.find? (fun l => l.name == link.name) = some link := by
  induction links with
  | nil => cases hm
  | cons hd tl ih =>
    rcases List.mem_cons.mp hm with h1 | h1
    · subst h1; simp [List.find?]
    · have hne : hd.name ≠ link.name := by
        intro hEq
        have : link.name ∈ tl.map IPFSLink.name := List.mem_map_of_mem _ h1
        rw [← hEq] at this
        exact (List.nodup_cons.mp hnd).1 this
      have : (hd.name == link.name) = false := by
        simp [hne]
      simp [List.find?, this]
      exact ih (List.nodup_cons.mp hnd).2 h1

/-! ## Unfolding lemmas for the synchronizer -/

lemma processEntries_nil {s : Store} {p : List String} {obj : IPFSObject} :
    processEntries s p [] obj = ([], .ok obj) := by
  simp [processEntries]

lemma processEntries_cons_err {s : Store} {p : List String} {n : String}
    {sub : FSTree} {rest : List (String × FSTree)} {obj : IPFSObject}
    {evs : List Event} {e : Err}
    (h : processEntry s p n sub obj = (evs, .error e)) :
    processEntries s p ((n, sub) :: rest) obj = (evs, .error e) := by
  simp [processEntries, h]

lemma processEntries_cons_ok {s : Store} {p : List String} {n : String}
    {sub : FSTree} {rest : List (String × FSTree)} {obj : IPFSObject}
    {evs : List Event} {obj1 : IPFSObject}
    (h : processEntry s p n sub obj = (evs, .ok obj1)) :
    processEntries s p ((n, sub) :: rest) obj =
      (evs ++ (processEntries s p rest obj1).1,
       (processEntries s p rest obj1).2) := by
  simp [processEntries, h]

lemma processEntry_skip {s : Store} {p : List String} {n : String}
    {sub : FSTree} {obj : IPFSObject} (hskip : isSkipExt n = true)
    (hsome : (obj.links.find? (fun l => l.name == n)).isSome = true) :
    processEntry s p n sub obj = ([], .ok obj) := by
  cases sub <;> simp [processEntry, hskip, hsome]

lemma processEntry_file_match {s : Store} {p : List String} {n : String}
    {c : Nat} {obj : IPFSObject} {link : IPFSLink} {newCid : Cid}
    (hskip : isSkipExt n = false)
    (hfind : obj.links.find? (fun l => l.name == n) = some link)
    (hadd : s.addFn (FSTree.file c) false = .ok newCid) :
    processEntry s p n (FSTree.file c) obj =
      if newCid = link.hash then
        ([Event.add (ipfsAddArgs (p ++ [n]) false) newCid], .ok obj)
      else
        (Event.add (ipfsAddArgs (p ++ [n]) false) newCid ::
           (IPFSObject.add_link s obj link.name newCid).1,
         (IPFSObject.add_link s obj link.name newCid).2) := by
  by_cases hc : newCid = link.hash <;>
    simp [processEntry, hskip, hfind, ipfs_add, hadd, hc]

lemma processEntry_file_match_err {s : Store} {p : List String} {n : String}
    {c : Nat} {obj : IPFSObject} {link : IPFSLink} {e : Err}
    (hskip : isSkipExt n = false)
    (hfind : obj.links.find? (fun l => l.name == n) = some link)
    (hadd : s.addFn (FSTree.file c) false = .error e) :
    processEntry s p n (FSTree.file c) obj = ([], .error e) := by
  simp [processEntry, hskip, hfind, ipfs_add, hadd]

lemma processEntry_file_nomatch {s : Store} {p : List String} {n : String}
    {c : Nat} {obj : IPFSObject} {newCid : Cid}
    (hfind : obj.links.find? (fun l => l.name == n) = none)
    (hadd : s.addFn (FSTree.file c) true = .ok newCid) :
    processEntry s p n (FSTree.file c) obj =
      (Event.add (ipfsAddArgs (p ++ [n]) true) newCid ::
         (IPFSObject.add_link s obj n newCid).1,
       (IPFSObject.add_link s obj n newCid).2) := by
  simp [processEntry, hfind, ipfs_add, hadd]

lemma processEntry_file_nomatch_err {s : Store} {p : List String} {n : String}
    {c : Nat} {obj : IPFSObject} {e : Err}
    (hfind : obj.links.find? (fun l => l.name == n) = none)
    (hadd : s.addFn (FSTree.file c) true = .error e) :
    processEntry s p n (FSTree.file c) obj = ([], .error e) := by
  simp [processEntry, hfind, ipfs_add, hadd]

lemma processEntry_dir_match_ok {s : Store} {p : List String} {n : String}
    {subs : List (String × FSTree)} {obj : IPFSObject} {link : IPFSLink}
    {evs : List Event} {newCid : Cid}
    (hskip : isSkipExt n = false)
    (hfind : obj.links.find? (fun l => l.name == n) = some link)
    (hrec : patch_root_object s (p ++ [n]) (FSTree.dir subs) link.hash
      = (evs, .ok newCid)) :
    processEntry s p n (FSTree.dir subs) obj =
      if newCid = link.hash then (evs, .ok obj)
      else
        (evs ++ (IPFSObject.add_link s obj link.name newCid).1,
         (IPFSObject.add_link s obj link.name newCid).2) := by
  by_cases hc : newCid = link.hash <;>
    simp [processEntry, hskip, hfind, hrec, hc]

lemma processEntry_dir_match_err {s : Store} {p : List String} {n : String}
    {subs : List (String × FSTree)} {obj : IPFSObject} {link : IPFSLink}
    {evs : List Event} {e : Err}
    (hskip : isSkipExt n = false)
    (hfind : obj.links.find? (fun l => l.name == n) = some link)
    (hrec : patch_root_object s (p ++ [n]) (FSTree.dir subs) link.hash
      = (evs, .error e)) :
    processEntry s p n (FSTree.dir subs) obj = (evs, .error e) := by
  simp [processEntry, hskip, hfind, hrec]

lemma processEntry_dir_nomatch {s : Store} {p : List String} {n : String}
    {subs : List (String × FSTree)} {obj : IPFSObject} {newCid : Cid}
    (hfind : obj.links.find? (fun l => l.name == n) = none)
    (hadd : s.addFn (FSTree.dir subs) true = .ok newCid) :
    processEntry s p n (FSTree.dir subs) obj =
      (Event.add (ipfsAddArgs (p ++ [n]) true) newCid ::
         (IPFSObject.add_link s obj n newCid).1,
       (IPFSObject.add_link s obj n newCid).2) := by
  simp [processEntry, hfind, ipfs_add, hadd]

lemma processEntry_dir_nomatch_err {s : Store} {p : List String} {n : String}
    {subs : List (String × FSTree)} {obj : IPFSObject} {e : Err}
    (hfind : obj.links.find? (fun l => l.name == n) = none)
    (hadd : s.addFn (FSTree.dir subs) true = .error e) :
    processEntry s p n (FSTree.dir subs) obj = ([], .error e) := by
  simp [processEntry, hfind, ipfs_add, hadd]

lemma pro_get_err {s : Store} {p : List String} {t : FSTree} {a : Cid} {e : Err}
    (hg : s.getLinks a = .error e) :
    patch_root_object s p t a = ([], .error e) := by
  cases t <;> simp [patch_root_object, IPFSObject.getObj, hg]

lemma pro_file {s : Store} {p : List String} {c : Nat} {a : Cid}
    {links : List IPFSLink} (hg : s.getLinks a = .ok links) :
    patch_root_object s p (FSTree.file c) a
      = ([Event.get a], .error "read_dir failed: not a directory") := by
  simp [patch_root_object, IPFSObject.getObj, hg]

lemma pro_dir_ok {s : Store} {p : List String}
    {entries : List (String × FSTree)} {a : Cid} {links : List IPFSLink}
    {evs : List Event} {objF : IPFSObject}
    (hg : s.getLinks a = .ok links)
    (hpe : processEntries s p entries ⟨links, some a⟩ = (evs, .ok objF)) :
    patch_root_object s p (FSTree.dir entries) a
      = (Event.get a :: (evs ++ driftWarnings objF.links entries),
         .ok objF.cidOf) := by
  simp [patch_root_object, IPFSObject.getObj, hg, hpe]

lemma pro_dir_err {s : Store} {p : List String}
    {entries : List (String × FSTree)} {a : Cid} {links : List IPFSLink}
    {evs : List Event} {e : Err}
    (hg : s.getLinks a = .ok links)
    (hpe : processEntries s p entries ⟨links, some a⟩ = (evs, .error e)) :
    patch_root_object s p (FSTree.dir entries) a
      = (Event.get a :: evs, .error e) := by
  simp [patch_root_object, IPFSObject.getObj, hg, hpe]

/-! ## Without patch events the in-flight object is unchanged -/

lemma processEntry_nopatch {s : Store} {p : List String} {n : String}
    {sub : FSTree} {obj : IPFSObject} {evs : List Event} {obj' : IPFSObject}
    (h : processEntry s p n sub obj = (evs, .ok obj'))
    (hnp : ∀ ev ∈ evs, ev.isPatch = false) : obj' = obj := by
  by_cases hskip : (isSkipExt n && (obj.links.find? (fun l => l.name == n)).isSome) = true
  · have hs : processEntry s p n sub obj = ([], .ok obj) := by
      cases sub <;> simp [processEntry, hskip]
    rw [hs] at h
    exact (Except.ok.inj (Prod.mk.injEq .. ▸ h).2).symm
  · have hok : ∀ evs2 (x : IPFSObject) nm ch,
        IPFSObject.add_link s obj nm ch = (evs2, .ok x) →
        (∀ ev ∈ evs2, ev.isPatch = false) → False := by
      intro evs2 x nm ch hal hn
      obtain ⟨hh, c', _, _, _, _, hevs⟩ := add_link_ok_shape hal
      have := hn (Event.patch hh nm ch) (by rw [hevs]; simp)
      simp [Event.isPatch] at this
    cases sub with
    | file c =>
      cases hfind : obj.links.find? (fun l => l.name == n) with
      | some link =>
        have hskip' : isSkipExt n = false := by
          cases hv : isSkipExt n
          · rfl
          · exact absurd (by simp [hv, hfind]) hskip
        cases hadd : s.addFn (FSTree.file c) false with
        | error e => rw [processEntry_file_match_err hskip' hfind hadd] at h; simp at h
        | ok newCid =>
          rw [processEntry_file_match hskip' hfind hadd] at h
          by_cases hc : newCid = link.hash
          · simp only [hc, if_pos rfl] at h
            exact (Except.ok.inj (Prod.mk.injEq .. ▸ h).2).symm
          · simp only [if_neg hc] at h
            obtain ⟨hevs, hr⟩ := Prod.mk.injEq .. ▸ h
            have hal : IPFSObject.add_link s obj link.name newCid
                = ((IPFSObject.add_link s obj link.name newCid).1, .ok obj') := by
              rw [← hr]
            exfalso
            refine hok _ _ _ _ hal ?_
            intro ev hev
            exact hnp ev (by rw [← hevs]; simp [hev])
      | none =>
        cases hadd : s.addFn (FSTree.file c) true with
        | error e => rw [processEntry_file_nomatch_err hfind hadd] at h; simp at h
        | ok newCid =>
          rw [processEntry_file_nomatch hfind hadd] at h
          obtain ⟨hevs, hr⟩ := Prod.mk.injEq .. ▸ h
          have hal : IPFSObject.add_link s obj n newCid
              = ((IPFSObject.add_link s obj n newCid).1, .ok obj') := by
            rw [← hr]
          exfalso
          refine hok _ _ _ _ hal ?_
          intro ev hev
          exact hnp ev (by rw [← hevs]; simp [hev])
    | dir subs =>
      cases hfind : obj.links.find? (fun l => l.name == n) with
      | some link =>
        have hskip' : isSkipExt n = false := by
          cases hv : isSkipExt n
          · rfl
          · exact absurd (by simp [hv, hfind]) hskip
        rcases hrec : patch_root_object s (p ++ [n]) (FSTree.dir subs) link.hash
          with ⟨evs1, r1⟩
        cases r1 with
        | error e =>
          rw [processEntry_dir_match_err hskip' hfind hrec] at h; simp at h
        | ok newCid =>
          rw [processEntry_dir_match_ok hskip' hfind hrec] at h
          by_cases hc : newCid = link.hash
          · simp only [hc, if_pos rfl] at h
            exact (Except.ok.inj (Prod.mk.injEq .. ▸ h).2).symm
          · simp only [if_neg hc] at h
            obtain ⟨hevs, hr⟩ := Prod.mk.injEq .. ▸ h
            have hal : IPFSObject.add_link s obj link.name newCid
                = ((IPFSObject.add_link s obj link.name newCid).1, .ok obj') := by
              rw [← hr]
            exfalso
            refine hok _ _ _ _ hal ?_
            intro ev hev
            exact hnp ev (by rw [← hevs]; simp [hev])
      | none =>
        cases hadd : s.addFn (FSTree.dir subs) true with
        | error e => rw [processEntry_dir_nomatch_err hfind hadd] at h; simp at h
        | ok newCid =>
          rw [processEntry_dir_nomatch hfind hadd] at h
          obtain ⟨hevs, hr⟩ := Prod.mk.injEq .. ▸ h
          have hal : IPFSObject.add_link s obj n newCid
              = ((IPFSObject.add_link s obj n newCid).1, .ok obj') := by
            rw [← hr]
          exfalso
          refine hok _ _ _ _ hal ?_
          intro ev hev
          exact hnp ev (by rw [← hevs]; simp [hev])

lemma processEntries_nopatch {s : Store} {p : List String}
    {es : List (String × FSTree)} {obj : IPFSObject} {evs : List Event}
    {obj' : IPFSObject}
    (h : processEntries s p es obj = (evs, .ok obj'))
    (hnp : ∀ ev ∈ evs, ev.isPatch = false) : obj' = obj := by
  induction es generalizing obj evs with
  | nil =>
    rw [processEntries_nil] at h
    exact (Except.ok.inj (Prod.mk.injEq .. ▸ h).2).symm
  | cons hd tl ih =>
    obtain ⟨n, sub⟩ := hd
    rcases hpe : processEntry s p n sub obj with ⟨evs1, r1⟩
    cases r1 with
    | error e => rw [processEntries_cons_err hpe] at h; simp at h
    | ok obj1 =>
      rw [processEntries_cons_ok hpe] at h
      obtain ⟨hevs, hr⟩ := Prod.mk.injEq .. ▸ h
      rcases hrest : processEntries s p tl obj1 with ⟨evs2, r2⟩
      rw [hrest] at hr hevs
      cases r2 with
      | error e => simp at hr
      | ok objx =>
        have hx : objx = obj' := Except.ok.inj hr
        have h1 : obj1 = obj := processEntry_nopatch hpe (by
          intro ev hev
          exact hnp ev (by rw [← hevs]; simp [hev]))
        have h2 : obj' = obj1 := ih (hx ▸ hrest) (by
          intro ev hev
          exact hnp ev (by rw [← hevs]; simp [hev]))
        rw [h2, h1]

/-- If a successful run recorded no patch event, the returned address is the
address the run started from. -/
lemma run_nopatch_id {s : Store} {p : List String} {t : FSTree} {a : Cid}
    {tr : List Event} {r : Cid}
    (h : patch_root_object s p t a = (tr, .ok r))
    (hnp : ∀ ev ∈ tr, ev.isPatch = false) : r = a := by
  cases hg : s.getLinks a with
  | error e => rw [pro_get_err hg] at h; simp at h
  | ok links =>
    cases t with
    | file c => rw [pro_file hg] at h; simp at h
    | dir entries =>
      rcases hpe : processEntries s p entries ⟨links, some a⟩ with ⟨evs, r1⟩
      cases r1 with
      | error e => rw [pro_dir_err hg hpe] at h; simp at h
      | ok objF =>
        rw [pro_dir_ok hg hpe] at h
        obtain ⟨hevs, hr⟩ := Prod.mk.injEq .. ▸ h
        have hid : objF = ⟨links, some a⟩ := processEntries_nopatch hpe (by
          intro ev hev
          exact hnp ev (by rw [← hevs]; simp [hev]))
        have : r = objF.cidOf := (Except.ok.inj hr).symm
        rw [this, hid]
        rfl

/-! ## Preservation of link lookups across patches -/

lemma add_link_find {s : Store} (hpc : PatchCoherent s) {obj : IPFSObject}
    {n : String} {child : Cid} {evs : List Event} {obj' : IPFSObject}
    (hinv : StoreInv s obj)
    (h : IPFSObject.add_link s obj n child = (evs, .ok obj')) :
    (∃ l, obj'.links.find? (fun x => x.name == n) = some l ∧ l.hash = child) ∧
    (∀ m, m ≠ n → obj'.links.find? (fun x => x.name == m)
        = obj.links.find? (fun x => x.name == m)) := by
  obtain ⟨hh, c', hhash, hp, hg, hho, hevs⟩ := add_link_ok_shape h
  obtain ⟨h0, hh0, hg0⟩ := hinv
  rw [hhash] at hh0
  have hhh : hh = h0 := Option.some.inj hh0
  rw [← hhh] at hg0
  obtain ⟨links', hget', hfound, hpres⟩ := hpc hh n child c' obj.links hg0 hp
  rw [hg] at hget'
  obtain rfl := Except.ok.inj hget'
  exact ⟨hfound, hpres⟩

lemma processEntry_pres {s : Store} (hpc : PatchCoherent s) {p : List String}
    {n : String} {sub : FSTree} {obj : IPFSObject} {evs : List Event}
    {obj' : IPFSObject} (hinv : StoreInv s obj)
    (h : processEntry s p n sub obj = (evs, .ok obj')) :
    StoreInv s obj' ∧ ∀ m, m ≠ n →
      obj'.links.find? (fun x => x.name == m)
        = obj.links.find? (fun x => x.name == m) := by
  by_cases hskip : (isSkipExt n && (obj.links.find? (fun l => l.name == n)).isSome) = true
  · have hs : processEntry s p n sub obj = ([], .ok obj) := by
      cases sub <;> simp [processEntry, hskip]
    rw [hs] at h
    obtain rfl := Except.ok.inj (Prod.mk.injEq .. ▸ h).2
    exact ⟨hinv, fun m _ => rfl⟩
  · cases sub with
    | file c =>
      cases hfind : obj.links.find? (fun l => l.name == n) with
      | some link =>
        have hskip' : isSkipExt n = false := by
          cases hv : isSkipExt n
          · rfl
          · exact absurd (by simp [hv, hfind]) hskip
        have hln : link.name = n := by
          have h0 := List.find?_some hfind
          exact eq_of_beq (by simpa using h0)
        cases hadd : s.addFn (FSTree.file c) false with
        | error e => rw [processEntry_file_match_err hskip' hfind hadd] at h; simp at h
        | ok newCid =>
          rw [processEntry_file_match hskip' hfind hadd] at h
          by_cases hc : newCid = link.hash
          · simp only [hc, if_pos rfl] at h
            obtain rfl := Except.ok.inj (Prod.mk.injEq .. ▸ h).2
            exact ⟨hinv, fun m _ => rfl⟩
          · simp only [if_neg hc] at h
            obtain ⟨hevs, hr⟩ := Prod.mk.injEq .. ▸ h
            have hal : IPFSObject.add_link s obj link.name newCid
                = ((IPFSObject.add_link s obj link.name newCid).1, .ok obj') := by
              rw [← hr]
            refine ⟨add_link_inv hal, ?_⟩
            intro m hm
            exact (add_link_find hpc hinv hal).2 m (hln ▸ hm)
      | none =>
        cases hadd : s.addFn (FSTree.file c) true with
        | error e => rw [processEntry_file_nomatch_err hfind hadd] at h; simp at h
        | ok newCid =>
          rw [processEntry_file_nomatch hfind hadd] at h
          obtain ⟨hevs, hr⟩ := Prod.mk.injEq .. ▸ h
          have hal : IPFSObject.add_link s obj n newCid
              = ((IPFSObject.add_link s obj n newCid).1, .ok obj') := by
            rw [← hr]
          exact ⟨add_link_inv hal, fun m hm => (add_link_find hpc hinv hal).2 m hm⟩
    | dir subs =>
      cases hfind : obj.links.find? (fun l => l.name == n) with
      | some link =>
        have hskip' : isSkipExt n = false := by
          cases hv : isSkipExt n
          · rfl
          · exact absurd (by simp [hv, hfind]) hskip
        have hln : link.name = n := by
          have h0 := List.find?_some hfind
          exact eq_of_beq (by simpa using h0)
        rcases hrec : patch_root_object s (p ++ [n]) (FSTree.dir subs) link.hash
          with ⟨evs1, r1⟩
        cases r1 with
        | error e =>
          rw [processEntry_dir_match_err hskip' hfind hrec] at h; simp at h
        | ok newCid =>
          rw [processEntry_dir_match_ok hskip' hfind hrec] at h
          by_cases hc : newCid = link.hash
          · simp only [hc, if_pos rfl] at h
            obtain rfl := Except.ok.inj (Prod.mk.injEq .. ▸ h).2
            exact ⟨hinv, fun m _ => rfl⟩
          · simp only [if_neg hc] at h
            obtain ⟨hevs, hr⟩ := Prod.mk.injEq .. ▸ h
            have hal : IPFSObject.add_link s obj link.name newCid
                = ((IPFSObject.add_link s obj link.name newCid).1, .ok obj') := by
              rw [← hr]
            refine ⟨add_link_inv hal, ?_⟩
            intro m hm
            exact (add_link_find hpc hinv hal).2 m (hln ▸ hm)
      | none =>
        cases hadd : s.addFn (FSTree.dir subs) true with
        | error e => rw [processEntry_dir_nomatch_err hfind hadd] at h; simp at h
        | ok newCid =>
          rw [processEntry_dir_nomatch hfind hadd] at h
          obtain ⟨hevs, hr⟩ := Prod.mk.injEq .. ▸ h
          have hal : IPFSObject.add_link s obj n newCid
              = ((IPFSObject.add_link s obj n newCid).1, .ok obj') := by
            rw [← hr]
          exact ⟨add_link_inv hal, fun m hm => (add_link_find hpc hinv hal).2 m hm⟩

lemma processEntries_pres {s : Store} (hpc : PatchCoherent s) {p : List String}
    {es : List (String × FSTree)} {obj : IPFSObject} {evs : List Event}
    {obj' : IPFSObject} (hinv : StoreInv s obj)
    (h : processEntries s p es obj = (evs, .ok obj')) :
    StoreInv s obj' ∧ ∀ m, (∀ e ∈ es, e.1 ≠ m) →
      obj'.links.find? (fun x => x.name == m)
        = obj.links.find? (fun x => x.name == m) := by
  induction es generalizing obj evs with
  | nil =>
    rw [processEntries_nil] at h
    obtain rfl := Except.ok.inj (Prod.mk.injEq .. ▸ h).2
    exact ⟨hinv, fun m _ => rfl⟩
  | cons hd tl ih =>
    obtain ⟨n, sub⟩ := hd
    rcases hpe : processEntry s p n sub obj with ⟨evs1, r1⟩
    cases r1 with
    | error e => rw [processEntries_cons_err hpe] at h; simp at h
    | ok obj1 =>
      rw [processEntries_cons_ok hpe] at h
      obtain ⟨hevs, hr⟩ := Prod.mk.injEq .. ▸ h
      rcases hrest : processEntries s p tl obj1 with ⟨evs2, r2⟩
      rw [hrest] at hr hevs
      cases r2 with
      | error e => simp at hr
      | ok objx =>
        have hx : objx = obj' := Except.ok.inj hr
        obtain ⟨hinv1, hpres1⟩ := processEntry_pres hpc hinv hpe
        obtain ⟨hinv2, hpres2⟩ := ih hinv1 (hx ▸ hrest)
        refine ⟨hinv2, ?_⟩
        intro m hm
        have h1 : n ≠ m := hm (n, sub) (by simp)
        rw [hpres2 m (fun e he => hm e (by simp [he]))]
        exact hpres1 m (Ne.symm h1)

/-! ## Drift warnings are pure warn events -/

lemma driftWarnings_warn {links : List IPFSLink}
    {es : List (String × FSTree)} {ev : Event}
    (h : ev ∈ driftWarnings links es) : ev.isWarn = true := by
  simp only [driftWarnings, List.mem_map] at h
  obtain ⟨l, -, rfl⟩ := h
  rfl

lemma driftWarnings_nopatch {links : List IPFSLink}
    {es : List (String × FSTree)} {ev : Event}
    (h : ev ∈ driftWarnings links es) : ev.isPatch = false := by
  simp only [driftWarnings, List.mem_map] at h
  obtain ⟨l, -, rfl⟩ := h
  rfl

/-! ## A successful run leaves every processed entry in good shape -/

lemma processEntry_good {s : Store} (hpc : PatchCoherent s)
    (hfc : AddFlagCoherent s) (htc : TreeUploadCoherent s)
    {p : List String} {n : String} {sub : FSTree} {obj : IPFSObject}
    {evs : List Event} {obj' : IPFSObject}
    (hrec : ∀ subs, sub = FSTree.dir subs → ∀ q a tr b,
      patch_root_object s q (FSTree.dir subs) a = (tr, .ok b) →
      Synced s b (FSTree.dir subs))
    (hinv : StoreInv s obj)
    (h : processEntry s p n sub obj = (evs, .ok obj')) :
    EntryGood s obj'.links n sub := by
  by_cases hskip : (isSkipExt n && (obj.links.find? (fun l => l.name == n)).isSome) = true
  · have hs : processEntry s p n sub obj = ([], .ok obj) := by
      cases sub <;> simp [processEntry, hskip]
    rw [hs] at h
    obtain rfl := Except.ok.inj (Prod.mk.injEq .. ▸ h).2
    have hsk : isSkipExt n = true := by
      cases hb : isSkipExt n
      · rw [hb] at hskip; simp at hskip
      · rfl
    have hsome : (obj.links.find? (fun l => l.name == n)).isSome = true := by
      rw [hsk] at hskip; simpa using hskip
    obtain ⟨link, hfind⟩ := Option.isSome_iff_exists.mp hsome
    exact ⟨link, hfind, fun hcon => Bool.noConfusion (hcon ▸ hsk)⟩
  · cases sub with
    | file c =>
      cases hfind : obj.links.find? (fun l => l.name == n) with
      | some link =>
        have hskip' : isSkipExt n = false := by
          cases hv : isSkipExt n
          · rfl
          · exact absurd (by simp [hv, hfind]) hskip
        have hln : link.name = n := by
          have h0 := List.find?_some hfind
          exact eq_of_beq (by simpa using h0)
        cases hadd : s.addFn (FSTree.file c) false with
        | error e => rw [processEntry_file_match_err hskip' hfind hadd] at h; simp at h
        | ok newCid =>
          rw [processEntry_file_match hskip' hfind hadd] at h
          by_cases hc : newCid = link.hash
          · simp only [hc, if_pos rfl] at h
            obtain rfl := Except.ok.inj (Prod.mk.injEq .. ▸ h).2
            exact ⟨link, hfind, fun _ => by
              show s.addFn (FSTree.file c) false = .ok link.hash
              rw [hadd, hc]⟩
          · simp only [if_neg hc] at h
            obtain ⟨hevs, hr⟩ := Prod.mk.injEq .. ▸ h
            have hal : IPFSObject.add_link s obj link.name newCid
                = ((IPFSObject.add_link s obj link.name newCid).1, .ok obj') := by
              rw [← hr]
            obtain ⟨⟨l, hfl, hlh⟩, -⟩ := add_link_find hpc hinv hal
            refine ⟨l, ?_, fun _ => by
              show s.addFn (FSTree.file c) false = .ok l.hash
              rw [hadd, hlh]⟩
            rw [← hln]
            exact hfl
      | none =>
        cases hadd : s.addFn (FSTree.file c) true with
        | error e => rw [processEntry_file_nomatch_err hfind hadd] at h; simp at h
        | ok newCid =>
          rw [processEntry_file_nomatch hfind hadd] at h
          obtain ⟨hevs, hr⟩ := Prod.mk.injEq .. ▸ h
          have hal : IPFSObject.add_link s obj n newCid
              = ((IPFSObject.add_link s obj n newCid).1, .ok obj') := by
            rw [← hr]
          obtain ⟨⟨l, hfl, hlh⟩, -⟩ := add_link_find hpc hinv hal
          refine ⟨l, hfl, fun _ => ?_⟩
          show s.addFn (FSTree.file c) false = .ok l.hash
          rw [← hfc c, hadd, hlh]
    | dir subs =>
      cases hfind : obj.links.find? (fun l => l.name == n) with
      | some link =>
        have hskip' : isSkipExt n = false := by
          cases hv : isSkipExt n
          · rfl
          · exact absurd (by simp [hv, hfind]) hskip
        have hln : link.name = n := by
          have h0 := List.find?_some hfind
          exact eq_of_beq (by simpa using h0)
        rcases hrecq : patch_root_object s (p ++ [n]) (FSTree.dir subs) link.hash
          with ⟨evs1, r1⟩
        cases r1 with
        | error e =>
          rw [processEntry_dir_match_err hskip' hfind hrecq] at h; simp at h
        | ok newCid =>
          have hsy : Synced s newCid (FSTree.dir subs) :=
            hrec subs rfl _ _ _ _ hrecq
          rw [processEntry_dir_match_ok hskip' hfind hrecq] at h
          by_cases hc : newCid = link.hash
          · simp only [hc, if_pos rfl] at h
            obtain rfl := Except.ok.inj (Prod.mk.injEq .. ▸ h).2
            exact ⟨link, hfind, fun _ => show Synced s link.hash (FSTree.dir subs) from hc ▸ hsy⟩
          · simp only [if_neg hc] at h
            obtain ⟨hevs, hr⟩ := Prod.mk.injEq .. ▸ h
            have hal : IPFSObject.add_link s obj link.name newCid
                = ((IPFSObject.add_link s obj link.name newCid).1, .ok obj') := by
              rw [← hr]
            obtain ⟨⟨l, hfl, hlh⟩, -⟩ := add_link_find hpc hinv hal
            refine ⟨l, ?_, fun _ => by
              show Synced s l.hash (FSTree.dir subs)
              rw [hlh]; exact hsy⟩
            rw [← hln]
            exact hfl
      | none =>
        cases hadd : s.addFn (FSTree.dir subs) true with
        | error e => rw [processEntry_dir_nomatch_err hfind hadd] at h; simp at h
        | ok newCid =>
          have hsy : Synced s newCid (FSTree.dir subs) := htc subs newCid hadd
          rw [processEntry_dir_nomatch hfind hadd] at h
          obtain ⟨hevs, hr⟩ := Prod.mk.injEq .. ▸ h
          have hal : IPFSObject.add_link s obj n newCid
              = ((IPFSObject.add_link s obj n newCid).1, .ok obj') := by
            rw [← hr]
          obtain ⟨⟨l, hfl, hlh⟩, -⟩ := add_link_find hpc hinv hal
          exact ⟨l, hfl, fun _ => by
            show Synced s l.hash (FSTree.dir subs)
            rw [hlh]; exact hsy⟩

lemma processEntries_good {s : Store} (hpc : PatchCoherent s)
    (hfc : AddFlagCoherent s) (htc : TreeUploadCoherent s)
    {p : List String} {es : List (String × FSTree)} {obj : IPFSObject}
    {evs : List Event} {obj' : IPFSObject}
    (hrec : ∀ n subs, (n, FSTree.dir subs) ∈ es → ∀ q a tr b,
      patch_root_object s q (FSTree.dir subs) a = (tr, .ok b) →
      Synced s b (FSTree.dir subs))
    (hnd : (es.map Prod.fst).Nodup)
    (hinv : StoreInv s obj)
    (h : processEntries s p es obj = (evs, .ok obj')) :
    StoreInv s obj' ∧ ∀ n sub, (n, sub) ∈ es → EntryGood s obj'.links n sub := by
  induction es generalizing obj evs with
  | nil =>
    rw [processEntries_nil] at h
    obtain rfl := Except.ok.inj (Prod.mk.injEq .. ▸ h).2
    exact ⟨hinv, fun n sub hmem => absurd hmem (List.not_mem_nil _)⟩
  | cons hd tl ih =>
    obtain ⟨n, sub⟩ := hd
    rcases hpe : processEntry s p n sub obj with ⟨evs1, r1⟩
    cases r1 with
    | error e => rw [processEntries_cons_err hpe] at h; simp at h
    | ok obj1 =>
      rw [processEntries_cons_ok hpe] at h
      obtain ⟨hevs, hr⟩ := Prod.mk.injEq .. ▸ h
      rcases hrest : processEntries s p tl obj1 with ⟨evs2, r2⟩
      rw [hrest] at hr hevs
      cases r2 with
      | error e => simp at hr
      | ok objx =>
        have hx : objx = obj' := Except.ok.inj hr
        obtain ⟨hinv1, -⟩ := processEntry_pres hpc hinv hpe
        have hgood1 : EntryGood s obj1.links n sub :=
          processEntry_good hpc hfc htc
            (fun subs hsub => hrec n subs (by rw [← hsub]; simp)) hinv hpe
        have hnd' : (tl.map Prod.fst).Nodup := by
          simp only [List.map_cons, List.nodup_cons] at hnd
          exact hnd.2
        obtain ⟨hinv2, hgoods⟩ := ih
          (fun m subs hmem => hrec m subs (by simp [hmem]))
          hnd' hinv1 (hx ▸ hrest)
        refine ⟨hinv2, ?_⟩
        intro m msub hmem
        rcases List.mem_cons.mp hmem with h1 | h1
        · obtain ⟨hm1, hm2⟩ := Prod.mk.injEq .. ▸ h1
          subst hm1
          subst hm2
          obtain ⟨-, hpres2⟩ := processEntries_pres hpc hinv1 (hx ▸ hrest)
          obtain ⟨link, hfind1, hcond⟩ := hgood1
          refine ⟨link, ?_, hcond⟩
          rw [hpres2 m ?_]
          · exact hfind1
          · intro e he heq
            apply (by simp only [List.map_cons, List.nodup_cons] at hnd; exact hnd.1 :
              m ∉ tl.map Prod.fst)
            rw [← heq]
            exact List.mem_map_of_mem _ he
        · exact hgoods m msub h1

/-- A successful synchronization run leaves the returned address mirroring
the local tree (assuming the store honours the content-addressing
contracts). -/
lemma sync_establishes_synced {s : Store} (hpc : PatchCoherent s)
    (hfc : AddFlagCoherent s) (htc : TreeUploadCoherent s) :
    ∀ k t, sizeOf t ≤ k → WFTree t → ∀ p a tr b,
      patch_root_object s p t a = (tr, .ok b) → Synced s b t := by
  intro k
  induction k with
  | zero =>
    intro t ht
    exact absurd ht (by have := one_le_sizeOf t; omega)
  | succ k ih =>
    intro t ht hwf p a tr b hrun
    cases hg : s.getLinks a with
    | error e => rw [pro_get_err hg] at hrun; simp at hrun
    | ok links =>
      cases t with
      | file c => rw [pro_file hg] at hrun; simp at hrun
      | dir entries =>
        rcases hpe : processEntries s p entries ⟨links, some a⟩ with ⟨evs, r1⟩
        cases r1 with
        | error e => rw [pro_dir_err hg hpe] at hrun; simp at hrun
        | ok objF =>
          rw [pro_dir_ok hg hpe] at hrun
          obtain ⟨-, hr⟩ := Prod.mk.injEq .. ▸ hrun
          have hb : b = objF.cidOf := (Except.ok.inj hr).symm
          cases hwf with
          | dir hwfnd hwfsub =>
            have hrec : ∀ m subs, (m, FSTree.dir subs) ∈ entries → ∀ q a' tr' b',
                patch_root_object s q (FSTree.dir subs) a' = (tr', .ok b') →
                Synced s b' (FSTree.dir subs) := by
              intro m subs hmem q a' tr' b' hr'
              have h1 := sizeOf_mem_lt hmem
              exact ih (FSTree.dir subs) (by omega)
                (hwfsub m (FSTree.dir subs) hmem) q a' tr' b' hr'
            obtain ⟨hinvF, hgoods⟩ :=
              processEntries_good hpc hfc htc hrec hwfnd ⟨a, rfl, hg⟩ hpe
            obtain ⟨hF, hFhash, hFget⟩ := hinvF
            have hbF : b = hF := by simp [hb, IPFSObject.cidOf, hFhash]
            refine @Synced.dir s b entries objF.links ?_ ?_ ?_ ?_
            · rw [hbF]; exact hFget
            · intro m sub hmem
              obtain ⟨link, hfind, -⟩ := hgoods m sub hmem
              simp [hfind]
            · intro m c link hmem hfind hsk
              obtain ⟨link', hfind', hcond⟩ := hgoods m (FSTree.file c) hmem
              rw [hfind] at hfind'
              obtain rfl := Option.some.inj hfind'
              exact hcond hsk
            · intro m subs link hmem hfind hsk
              obtain ⟨link', hfind', hcond⟩ := hgoods m (FSTree.dir subs) hmem
              rw [hfind] at hfind'
              obtain rfl := Option.some.inj hfind'
              exact hcond hsk

/-- Running the synchronizer on an address that already mirrors the local
tree returns the same address and issues no patch at all. -/
lemma synced_run {s : Store} :
    ∀ k t, sizeOf t ≤ k → ∀ p a, Synced s a t →
      ∃ tr, patch_root_object s p t a = (tr, .ok a) ∧
        ∀ ev ∈ tr, ev.isPatch = false := by
  intro k
  induction k with
  | zero =>
    intro t ht
    exact absurd ht (by have := one_le_sizeOf t; omega)
  | succ k ih =>
    intro t ht p a hsy
    cases hsy with
    | dir hget hsome hfile hdir =>
      rename_i entries links
      have key : ∀ es, (∀ e, e ∈ es → e ∈ entries) →
          ∃ evs, processEntries s p es ⟨links, some a⟩
              = (evs, .ok ⟨links, some a⟩) ∧
            ∀ ev ∈ evs, ev.isPatch = false := by
        intro es
        induction es with
        | nil => intro _; exact ⟨[], processEntries_nil, by simp⟩
        | cons hd tl ihes =>
          intro hsubset
          obtain ⟨n, sub⟩ := hd
          have hmem : (n, sub) ∈ entries := hsubset _ (by simp)
          have hsm := hsome n sub hmem
          obtain ⟨link, hfind⟩ := Option.isSome_iff_exists.mp hsm
          obtain ⟨evs2, hrest, hnp2⟩ := ihes (fun e he => hsubset e (by simp [he]))
          by_cases hsk : isSkipExt n = true
          · have h1 : processEntry s p n sub ⟨links, some a⟩
                = ([], .ok ⟨links, some a⟩) :=
              processEntry_skip hsk (by simp [hfind])
            refine ⟨[] ++ evs2, by rw [processEntries_cons_ok h1, hrest], ?_⟩
            intro ev hev
            simp only [List.nil_append] at hev
            exact hnp2 ev hev
          · have hskf : isSkipExt n = false := by
              cases hv : isSkipExt n
              · rfl
              · exact absurd hv hsk
            cases sub with
            | file c =>
              have hadd := hfile n c link hmem hfind hskf
              have h1 : processEntry s p n (FSTree.file c) ⟨links, some a⟩
                  = ([Event.add (ipfsAddArgs (p ++ [n]) false) link.hash],
                     .ok ⟨links, some a⟩) := by
                rw [processEntry_file_match hskf hfind hadd]
                simp
              refine ⟨_ ++ evs2,
                by rw [processEntries_cons_ok h1, hrest], ?_⟩
              intro ev hev
              rcases List.mem_append.mp hev with h2 | h2
              · simp only [List.mem_singleton] at h2
                subst h2
                rfl
              · exact hnp2 ev h2
            | dir subs =>
              have hsy2 := hdir n subs link hmem hfind hskf
              have hszlt := sizeOf_mem_lt hmem
              obtain ⟨tr', hrec, hnp'⟩ :=
                ih (FSTree.dir subs) (by omega) (p ++ [n]) link.hash hsy2
              have h1 : processEntry s p n (FSTree.dir subs) ⟨links, some a⟩
                  = (tr', .ok ⟨links, some a⟩) := by
                rw [processEntry_dir_match_ok hskf hfind hrec]
                simp
              refine ⟨tr' ++ evs2,
                by rw [processEntries_cons_ok h1, hrest], ?_⟩
              intro ev hev
              rcases List.mem_append.mp hev with h2 | h2
              · exact hnp' ev h2
              · exact hnp2 ev h2
      obtain ⟨evs, hpe, hnp⟩ := key entries (fun e he => he)
      refine ⟨Event.get a :: (evs ++ driftWarnings links entries),
        pro_dir_ok hget hpe, ?_⟩
      intro ev hev
      rcases List.mem_cons.mp hev with rfl | hev2
      · rfl
      · rcases List.mem_append.mp hev2 with h2 | h2
        · exact hnp ev h2
        · exact driftWarnings_nopatch h2

/-! ## Every upload in any trace carries the --pin=false flag -/

lemma pin_mem (q : List String) (b : Bool) : "--pin=false" ∈ ipfsAddArgs q b := by
  cases b <;> simp [ipfsAddArgs]

lemma add_link_no_add {s : Store} {obj : IPFSObject} {nm : String} {ch : Cid}
    {args : List String} {c : Cid} :
    Event.add args c ∉ (IPFSObject.add_link s obj nm ch).1 := by
  rcases hh : obj.hash with _ | h
  · simp [IPFSObject.add_link, hh]
  · rcases hp : s.patchLink h nm ch with e | c'
    · simp [IPFSObject.add_link, hh, hp]
    · rcases hg : s.getLinks c' with e | ls
      · simp [IPFSObject.add_link, hh, hp, hg]
      · simp [IPFSObject.add_link, hh, hp, hg]

lemma driftWarnings_no_add {links : List IPFSLink} {es : List (String × FSTree)}
    {args : List String} {c : Cid} :
    Event.add args c ∉ driftWarnings links es := by
  intro h
  have := driftWarnings_warn h
  simp [Event.isWarn] at this

lemma driftWarnings_mem {links : List IPFSLink} {es : List (String × FSTree)}
    {link : IPFSLink} (hm : link ∈ links)
    (hno : ∀ e ∈ es, e.1 ≠ link.name) :
    Event.warn link.name ∈ driftWarnings links es := by
  have hany : es.any (fun e => e.1 == link.name) = false := by
    rw [List.any_eq_false]
    intro e he
    simpa using hno e he
  simp only [driftWarnings, List.mem_map]
  exact ⟨link, List.mem_filter.mpr ⟨hm, by simp [hany]⟩, rfl⟩

lemma trace_pin_all : ∀ k : Nat,
    (∀ t : FSTree, sizeOf t ≤ k → ∀ s p a args c,
      Event.add args c ∈ (patch_root_object s p t a).1 → "--pin=false" ∈ args) ∧
    (∀ es : List (String × FSTree), sizeOf es ≤ k → ∀ s p obj args c,
      Event.add args c ∈ (processEntries s p es obj).1 → "--pin=false" ∈ args) ∧
    (∀ sub : FSTree, sizeOf sub ≤ k → ∀ s p n obj args c,
      Event.add args c ∈ (processEntry s p n sub obj).1 → "--pin=false" ∈ args) := by
  intro k
  induction k with
  | zero =>
    refine ⟨?_, ?_, ?_⟩
    · intro t ht
      exact absurd ht (by have := one_le_sizeOf t; omega)
    · intro es hes
      have h1 : 1 ≤ sizeOf es := by
        cases es with
        | nil => simp
        | cons hd tl => simp; omega
      exact absurd hes (by omega)
    · intro sub hs
      exact absurd hs (by have := one_le_sizeOf sub; omega)
  | succ k ih =>
    obtain ⟨ih1, ih2, ih3⟩ := ih
    have P1 : ∀ t : FSTree, sizeOf t ≤ k + 1 → ∀ s p a args c,
        Event.add args c ∈ (patch_root_object s p t a).1 → "--pin=false" ∈ args := by
      intro t ht s p a args c hmem
      cases hg : s.getLinks a with
      | error e => rw [pro_get_err hg] at hmem; simp at hmem
      | ok links =>
        cases t with
        | file cc => rw [pro_file hg] at hmem; simp at hmem
        | dir entries =>
          rcases hpe : processEntries s p entries ⟨links, some a⟩ with ⟨evs, r1⟩
          cases r1 with
          | error e =>
            rw [pro_dir_err hg hpe] at hmem
            rcases List.mem_cons.mp hmem with hx | hx
            · exact absurd hx (by simp)
            · refine ih2 entries ?_ s p ⟨links, some a⟩ args c (by rw [hpe]; exact hx)
              simp at ht
              omega
          | ok objF =>
            rw [pro_dir_ok hg hpe] at hmem
            rcases List.mem_cons.mp hmem with hx | hx
            · exact absurd hx (by simp)
            · rcases List.mem_append.mp hx with hy | hy
              · refine ih2 entries ?_ s p ⟨links, some a⟩ args c (by rw [hpe]; exact hy)
                simp at ht
                omega
              · exact absurd hy driftWarnings_no_add
    have P3 : ∀ sub : FSTree, sizeOf sub ≤ k + 1 → ∀ s p n obj args c,
        Event.add args c ∈ (processEntry s p n sub obj).1 → "--pin=false" ∈ args := by
      intro sub hs s p n obj args c hmem
      by_cases hskip : (isSkipExt n && (obj.links.find? (fun l => l.name == n)).isSome) = true
      · rw [show processEntry s p n sub obj = ([], .ok obj) from by
          cases sub <;> simp [processEntry, hskip]] at hmem
        simp at hmem
      · cases sub with
        | file cc =>
          cases hfind : obj.links.find? (fun l => l.name == n) with
          | some link =>
            have hskip' : isSkipExt n = false := by
              cases hv : isSkipExt n
              · rfl
              · exact absurd (by simp [hv, hfind]) hskip
            cases hadd : s.addFn (FSTree.file cc) false with
            | error e =>
              rw [processEntry_file_match_err hskip' hfind hadd] at hmem
              simp at hmem
            | ok newCid =>
              rw [processEntry_file_match hskip' hfind hadd] at hmem
              by_cases hc : newCid = link.hash
              · simp only [hc, if_pos rfl] at hmem
                rcases List.mem_singleton.mp hmem with hx
                obtain ⟨rfl, -⟩ := Event.add.injEq .. ▸ hx
                exact pin_mem ..
              · simp only [if_neg hc] at hmem
                rcases List.mem_cons.mp hmem with hx | hx
                · obtain ⟨rfl, -⟩ := Event.add.injEq .. ▸ hx
                  exact pin_mem ..
                · exact absurd hx add_link_no_add
          | none =>
            cases hadd : s.addFn (FSTree.file cc) true with
            | error e =>
              rw [processEntry_file_nomatch_err hfind hadd] at hmem
              simp at hmem
            | ok newCid =>
              rw [processEntry_file_nomatch hfind hadd] at hmem
              rcases List.mem_cons.mp hmem with hx | hx
              · obtain ⟨rfl, -⟩ := Event.add.injEq .. ▸ hx
                exact pin_mem ..
              · exact absurd hx add_link_no_add
        | dir subs =>
          cases hfind : obj.links.find? (fun l => l.name == n) with
          | some link =>
            have hskip' : isSkipExt n = false := by
              cases hv : isSkipExt n
              · rfl
              · exact absurd (by simp [hv, hfind]) hskip
            rcases hrec : patch_root_object s (p ++ [n]) (FSTree.dir subs) link.hash
              with ⟨evs1, r1⟩
            cases r1 with
            | error e =>
              rw [processEntry_dir_match_err hskip' hfind hrec] at hmem
              exact P1 (FSTree.dir subs) hs s (p ++ [n]) link.hash args c
                (by rw [hrec]; exact hmem)
            | ok newCid =>
              rw [processEntry_dir_match_ok hskip' hfind hrec] at hmem
              by_cases hc : newCid = link.hash
              · simp only [hc, if_pos rfl] at hmem
                exact P1 (FSTree.dir subs) hs s (p ++ [n]) link.hash args c
                  (by rw [hrec]; exact hmem)
              · simp only [if_neg hc] at hmem
                rcases List.mem_append.mp hmem with hx | hx
                · exact P1 (FSTree.dir subs) hs s (p ++ [n]) link.hash args c
                    (by rw [hrec]; exact hx)
                · exact absurd hx add_link_no_add
          | none =>
            cases hadd : s.addFn (FSTree.dir subs) true with
            | error e =>
              rw [processEntry_dir_nomatch_err hfind hadd] at hmem
              simp at hmem
            | ok newCid =>
              rw [processEntry_dir_nomatch hfind hadd] at hmem
              rcases List.mem_cons.mp hmem with hx | hx
              · obtain ⟨rfl, -⟩ := Event.add.injEq .. ▸ hx
                exact pin_mem ..
              · exact absurd hx add_link_no_add
    have P2 : ∀ es : List (String × FSTree), sizeOf es ≤ k + 1 → ∀ s p obj args c,
        Event.add args c ∈ (processEntries s p es obj).1 → "--pin=false" ∈ args := by
      intro es hes s p obj args c hmem
      cases es with
      | nil => rw [processEntries_nil] at hmem; simp at hmem
      | cons hd tl =>
        obtain ⟨n, sub⟩ := hd
        rcases hpe : processEntry s p n sub obj with ⟨evs1, r1⟩
        cases r1 with
        | error e =>
          rw [processEntries_cons_err hpe] at hmem
          refine ih3 sub ?_ s p n obj args c (by rw [hpe]; exact hmem)
          simp at hes
          omega
        | ok obj1 =>
          rw [processEntries_cons_ok hpe] at hmem
          rcases List.mem_append.mp hmem with hx | hx
          · refine ih3 sub ?_ s p n obj args c (by rw [hpe]; exact hx)
            simp at hes
            omega
          · refine ih2 tl ?_ s p obj1 args c hx
            simp at hes
            omega
    exact ⟨P1, P2, P3⟩

/-! ## Claim theorems -/

/-- Counterexample to C1.  The claim states that a new file with no remote
link is uploaded "via the single-file upload operation (not the recursive
tree upload)".  In the source (src/ipfs.rs line 120) this branch calls
`ipfs_add(&local_link_path, true)`, so the upload command carries the `-r`
recursive flag: at the concrete input below, the recorded upload event uses
the argument list of the recursive form. -/
theorem c1_counterexample :
    processEntry S1 ["d"] "b.txt" (FSTree.file 7) ⟨[], some 1⟩
      = ([Event.add (ipfsAddArgs ["d", "b.txt"] true) 42,
          Event.patch 1 "b.txt" 42, Event.get 101],
         .ok ⟨[⟨"b.txt", 42, 7⟩], some 101⟩)
    ∧ "-r" ∈ ipfsAddArgs ["d", "b.txt"] true := by
  constructor
  · rw [processEntry_file_nomatch (by decide)
        (show S1.addFn (FSTree.file 7) true = .ok 42 from rfl),
      add_link_ok (show (⟨[], some 1⟩ : IPFSObject).hash = some 1 from rfl)
        (show S1.patchLink 1 "b.txt" 42 = .ok 101 from rfl)
        (show S1.getLinks 101 = .ok [⟨"b.txt", 42, 7⟩] from rfl)]
    rfl
  · simp [ipfsAddArgs]

/-- C1 (amended): for every local file entry with no same-named remote link,
the synchronizer uploads it via `ipfs add` invoked WITH the recursive `-r`
flag (is_folder = true), and then always issues exactly one patchAddLink
call adding a link named after the entry and pointing at the address the
upload returned. -/
theorem c1_theorem (s : Store) (p : List String) (n : String) (c : Nat)
    (obj : IPFSObject) (newCid : Cid) (h : Cid) (c2 : Cid)
    (links2 : List IPFSLink)
    (hfind : obj.links.find? (fun l => l.name == n) = none)
    (hadd : s.addFn (FSTree.file c) true = .ok newCid)
    (hhash : obj.hash = some h)
    (hpatch : s.patchLink h n newCid = .ok c2)
    (hget2 : s.getLinks c2 = .ok links2) :
    processEntry s p n (FSTree.file c) obj
      = ([Event.add (ipfsAddArgs (p ++ [n]) true) newCid,
          Event.patch h n newCid, Event.get c2], .ok ⟨links2, some c2⟩)
    ∧ "-r" ∈ ipfsAddArgs (p ++ [n]) true := by
  constructor
  · rw [processEntry_file_nomatch hfind hadd, add_link_ok hhash hpatch hget2]
  · simp [ipfsAddArgs]

/-- Witness for C1: the amended theorem applied at a concrete store and
entry. -/
theorem c1_witness :
    processEntry S1 ["w"] "b.txt" (FSTree.file 7) ⟨[], some 1⟩
      = ([Event.add (ipfsAddArgs (["w"] ++ ["b.txt"]) true) 42,
          Event.patch 1 "b.txt" 42, Event.get 101],
         .ok ⟨[⟨"b.txt", 42, 7⟩], some 101⟩)
    ∧ "-r" ∈ ipfsAddArgs (["w"] ++ ["b.txt"]) true :=
  c1_theorem S1 ["w"] "b.txt" 7 ⟨[], some 1⟩ 42 1 101 [⟨"b.txt", 42, 7⟩]
    (by decide) rfl rfl rfl rfl

/-- C2: a local file whose extension is in the immutable-once-published set
(`ogg` or `flac`) and which has a same-named remote link is skipped
entirely: no upload, no patch, the current root object unchanged — for
every file content, i.e. even when the local bytes differ from the remote
content. -/
theorem c2_theorem (s : Store) (p : List String) (n : String) (c : Nat)
    (obj : IPFSObject)
    (hext : extensionOf n = some "ogg" ∨ extensionOf n = some "flac")
    (hsome : (obj.links.find? (fun l => l.name == n)).isSome = true) :
    processEntry s p n (FSTree.file c) obj = ([], .ok obj) := by
  apply processEntry_skip _ hsome
  rcases hext with h | h <;> simp [isSkipExt, h]

/-- Witness for C2 at a concrete store, link list and file. -/
theorem c2_witness :
    processEntry S1 ["d"] "a.ogg" (FSTree.file 999) rootObj
      = ([], .ok rootObj) :=
  c2_theorem S1 ["d"] "a.ogg" 999 rootObj (Or.inl (by decide)) (by decide)

/-- C3: (i) if a successful run of `patch_root_object` recorded no patch
call, the returned address is the one the run started from; (ii)
consequently, under the content-addressing store contracts, running the
synchronizer again on the address returned by a successful run over the
unchanged local tree returns that same address and issues zero patch
calls. -/
theorem c3_theorem (s : Store) (hpc : PatchCoherent s) (hfc : AddFlagCoherent s)
    (htc : TreeUploadCoherent s) (t : FSTree) (hwf : WFTree t)
    (p : List String) (a b : Cid) (tr1 : List Event)
    (h1 : patch_root_object s p t a = (tr1, .ok b)) :
    ((∀ ev ∈ tr1, ev.isPatch = false) → b = a) ∧
    ∃ tr2, patch_root_object s p t b = (tr2, .ok b) ∧
      ∀ ev ∈ tr2, ev.isPatch = false := by
  constructor
  · intro hnp
    exact run_nopatch_id h1 hnp
  · have hsy : Synced s b t :=
      sync_establishes_synced hpc hfc htc (sizeOf t) t le_rfl hwf p a tr1 b h1
    exact synced_run (sizeOf t) t le_rfl p b hsy

/-- Witness for C3: at a concrete coherent store, the second run over the
returned address issues no patch call and returns the same address. -/
theorem c3_witness :
    ∃ tr2, patch_root_object STrivial [] (FSTree.dir []) 0 = (tr2, .ok 0) ∧
      ∀ ev ∈ tr2, ev.isPatch = false := by
  have hrun : patch_root_object STrivial [] (FSTree.dir []) 0
      = ([Event.get 0], .ok 0) := by
    rw [pro_dir_ok (show STrivial.getLinks 0 = .ok [] from rfl) processEntries_nil]
    simp [driftWarnings, IPFSObject.cidOf]
  exact (c3_theorem STrivial
    (by intro c n h c' links hg hp; simp [STrivial] at hp)
    (by intro c; rfl)
    (by intro subs c' h; simp [STrivial] at h)
    (FSTree.dir []) (WFTree.dir (by simp) (by simp))
    [] 0 0 [Event.get 0] hrun).2

/-- C4: a local file with a same-named remote link (and not skipped) is
always uploaded, and the parent is patched only if the uploaded address
differs from the link's current target; when they are equal no patch is
issued and the current root object is left untouched. -/
theorem c4_theorem (s : Store) (p : List String) (n : String) (c : Nat)
    (obj : IPFSObject) (link : IPFSLink) (newCid : Cid)
    (hskip : isSkipExt n = false)
    (hfind : obj.links.find? (fun l => l.name == n) = some link)
    (hadd : s.addFn (FSTree.file c) false = .ok newCid) :
    (newCid = link.hash →
      processEntry s p n (FSTree.file c) obj
        = ([Event.add (ipfsAddArgs (p ++ [n]) false) newCid], .ok obj)) ∧
    (newCid ≠ link.hash →
      processEntry s p n (FSTree.file c) obj
        = (Event.add (ipfsAddArgs (p ++ [n]) false) newCid ::
             (IPFSObject.add_link s obj link.name newCid).1,
           (IPFSObject.add_link s obj link.name newCid).2)) := by
  constructor <;> intro hc <;>
    rw [processEntry_file_match hskip hfind hadd] <;> simp [hc]

/-- Witness for C4: a file whose re-upload returns the address already
stored in the link is left unpatched. -/
theorem c4_witness :
    processEntry S1 ["d"] "c.txt" (FSTree.file 7) rootObj
      = ([Event.add (ipfsAddArgs (["d"] ++ ["c.txt"]) false) 42], .ok rootObj) :=
  (c4_theorem S1 ["d"] "c.txt" 7 rootObj ⟨"c.txt", 42, 0⟩ 42
    (by decide) (by decide) rfl).1 rfl

/-- Counterexample to C5.  The claim quantifies over every directory entry
with a same-named remote link, but the ogg/flac skip rule is applied before
the file/directory dispatch: a directory named `a.ogg` with a matching
remote link is skipped without any recursive call (its trace is empty),
although a recursive sync of the link's target would have produced at least
one fetch event. -/
theorem c5_counterexample :
    processEntry S1 ["d"] "a.ogg" (FSTree.dir []) rootObj = ([], .ok rootObj)
    ∧ patch_root_object S1 ["d", "a.ogg"] (FSTree.dir []) 5
        = ([Event.get 5], .ok 5) := by
  constructor
  · exact processEntry_skip (by decide) (by decide)
  · rw [pro_dir_ok (show S1.getLinks 5 = .ok [] from rfl) processEntries_nil]
    simp [driftWarnings, IPFSObject.cidOf]

/-- C5 (amended): for every local directory entry with a same-named remote
link whose name's extension is NOT in the immutable set, the synchronizer
recursively runs `patch_root_object(match.target, e)` — the recursion's
whole trace is part of the entry's trace — and issues a patchAddLink at
this level if and only if the address returned by the recursion differs
from `match.target` (on recursion failure the error propagates). -/
theorem c5_theorem (s : Store) (p : List String) (n : String)
    (subs : List (String × FSTree)) (obj : IPFSObject) (link : IPFSLink)
    (hskip : isSkipExt n = false)
    (hfind : obj.links.find? (fun l => l.name == n) = some link) :
    (∀ evs newCid,
      patch_root_object s (p ++ [n]) (FSTree.dir subs) link.hash
        = (evs, .ok newCid) →
      processEntry s p n (FSTree.dir subs) obj
        = (if newCid = link.hash then (evs, .ok obj)
           else (evs ++ (IPFSObject.add_link s obj link.name newCid).1,
                 (IPFSObject.add_link s obj link.name newCid).2))) ∧
    (∀ evs e,
      patch_root_object s (p ++ [n]) (FSTree.dir subs) link.hash
        = (evs, .error e) →
      processEntry s p n (FSTree.dir subs) obj = (evs, .error e)) :=
  ⟨fun _ _ hrec => processEntry_dir_match_ok hskip hfind hrec,
   fun _ _ hrec => processEntry_dir_match_err hskip hfind hrec⟩

/-- Witness for C5: a matched subdirectory whose recursive run returns its
own address unchanged leads to no patch at this level, and the recursion's
fetch event appears in the entry's trace. -/
theorem c5_witness :
    processEntry S1 [] "sub" (FSTree.dir []) ⟨[⟨"sub", 5, 0⟩], some 1⟩
      = ([Event.get 5], .ok ⟨[⟨"sub", 5, 0⟩], some 1⟩) := by
  have h := (c5_theorem S1 [] "sub" [] ⟨[⟨"sub", 5, 0⟩], some 1⟩ ⟨"sub", 5, 0⟩
    (by decide) (by decide)).1 [Event.get 5] 5 (by
      rw [pro_dir_ok (show S1.getLinks 5 = .ok [] from rfl) processEntries_nil]
      simp [driftWarnings, IPFSObject.cidOf])
  simpa using h

/-- C6: on a successful run, the trace decomposes into the processing phase
followed by the drift-warning phase; the drift phase consists of warning
events only (no upload, no patch, no fetch), the returned address is the
final object's cid fixed before that phase, and — assuming the store's
patch contract and uniqueness of remote link names — every link of the
originally fetched root that has no same-named local entry receives a
warning. -/
theorem c6_theorem (s : Store) (hpc : PatchCoherent s) (p : List String)
    (entries : List (String × FSTree)) (a : Cid) (links0 : List IPFSLink)
    (tr : List Event) (r : Cid)
    (hget : s.getLinks a = .ok links0)
    (hnd : (links0.map IPFSLink.name).Nodup)
    (h : patch_root_object s p (FSTree.dir entries) a = (tr, .ok r)) :
    ∃ evs objF,
      processEntries s p entries ⟨links0, some a⟩ = (evs, .ok objF) ∧
      tr = Event.get a :: (evs ++ driftWarnings objF.links entries) ∧
      r = objF.cidOf ∧
      (∀ ev ∈ driftWarnings objF.links entries, ev.isWarn = true) ∧
      (∀ link ∈ links0, (∀ e ∈ entries, e.1 ≠ link.name) →
        Event.warn link.name ∈ driftWarnings objF.links entries) := by
  rcases hpe : processEntries s p entries ⟨links0, some a⟩ with ⟨evs, r1⟩
  cases r1 with
  | error e => rw [pro_dir_err hget hpe] at h; simp at h
  | ok objF =>
    rw [pro_dir_ok hget hpe] at h
    obtain ⟨hevs, hr⟩ := Prod.mk.injEq .. ▸ h
    refine ⟨evs, objF, rfl, hevs.symm, (Except.ok.inj hr).symm,
      fun ev hev => driftWarnings_warn hev, ?_⟩
    intro link hlmem hno
    obtain ⟨-, hpres⟩ := processEntries_pres hpc ⟨a, rfl, hget⟩ hpe
    have hfindF : objF.links.find? (fun l => l.name == link.name) = some link := by
      rw [hpres link.name hno]
      exact find_of_nodup_mem hnd hlmem
    exact driftWarnings_mem (List.mem_of_find?_eq_some hfindF) hno

/-- Witness for C6: a root with one remote-only link produces exactly its
drift warning and returns the unchanged address. -/
theorem c6_witness :
    ∃ evs objF,
      processEntries SDrift [] [] ⟨[⟨"gone.txt", 9, 3⟩], some 0⟩
          = (evs, .ok objF) ∧
      [Event.get 0, Event.warn "gone.txt"]
          = Event.get 0 :: (evs ++ driftWarnings objF.links []) ∧
      (0 : Cid) = objF.cidOf ∧
      (∀ ev ∈ driftWarnings objF.links ([] : List (String × FSTree)),
        ev.isWarn = true) ∧
      (∀ link ∈ [(⟨"gone.txt", 9, 3⟩ : IPFSLink)],
        (∀ e ∈ ([] : List (String × FSTree)), e.1 ≠ link.name) →
        Event.warn link.name ∈ driftWarnings objF.links []) := by
  have hrun : patch_root_object SDrift [] (FSTree.dir []) 0
      = ([Event.get 0, Event.warn "gone.txt"], .ok 0) := by
    rw [pro_dir_ok (show SDrift.getLinks 0 = .ok [⟨"gone.txt", 9, 3⟩] from rfl)
      processEntries_nil]
    simp [driftWarnings, IPFSObject.cidOf]
  exact c6_theorem SDrift
    (by intro c n h c' links hg hp; simp [SDrift] at hp)
    [] [] 0 [⟨"gone.txt", 9, 3⟩] [Event.get 0, Event.warn "gone.txt"] 0
    rfl (by simp) hrun

/-- C7: a failing store call or directory enumeration aborts the enclosing
run immediately with that error and no retry: a failed root fetch yields
the error with no further activity; a failing entry aborts the loop so the
remaining entries of the directory are never processed and the error value
is returned unchanged; a failure inside the processing loop aborts the
whole frame (no drift phase); and a failure of a recursive sync propagates
unchanged through the enclosing entry. -/
theorem c7_theorem (s : Store) :
    (∀ p t a e, s.getLinks a = .error e →
      patch_root_object s p t a = ([], .error e)) ∧
    (∀ p n sub rest obj evs e,
      processEntry s p n sub obj = (evs, .error e) →
      processEntries s p ((n, sub) :: rest) obj = (evs, .error e)) ∧
    (∀ p entries a links evs e, s.getLinks a = .ok links →
      processEntries s p entries ⟨links, some a⟩ = (evs, .error e) →
      patch_root_object s p (FSTree.dir entries) a
        = (Event.get a :: evs, .error e)) ∧
    (∀ p n subs obj link evs e, isSkipExt n = false →
      obj.links.find? (fun l => l.name == n) = some link →
      patch_root_object s (p ++ [n]) (FSTree.dir subs) link.hash
        = (evs, .error e) →
      processEntry s p n (FSTree.dir subs) obj = (evs, .error e)) :=
  ⟨fun _ _ _ _ hg => pro_get_err hg,
   fun _ _ _ _ _ _ _ h => processEntries_cons_err h,
   fun _ _ _ _ _ _ hg hpe => pro_dir_err hg hpe,
   fun _ _ _ _ _ _ _ hskip hfind hrec =>
     processEntry_dir_match_err hskip hfind hrec⟩

/-- Witness for C7: with a store whose calls all fail, a failed fetch aborts
the run with that error, and a failing first entry aborts the loop with the
upload's error and no further processing. -/
theorem c7_witness :
    patch_root_object SErr [] (FSTree.dir []) 1 = ([], .error "boom") ∧
    processEntries SErr [] [("x", FSTree.file 3)] ⟨[], some 1⟩
      = ([], .error "boom") := by
  constructor
  · exact (c7_theorem SErr).1 [] (FSTree.dir []) 1 "boom" rfl
  · exact (c7_theorem SErr).2.1 [] "x" (FSTree.file 3) [] ⟨[], some 1⟩ [] "boom"
      (processEntry_file_nomatch_err (by decide) rfl)

/-- C8: every upload command issued anywhere in a synchronization run —
single file or recursive tree, at any recursion depth — carries the
`--pin=false` argument, i.e. pinning is always explicitly disabled. -/
theorem c8_theorem (s : Store) (p : List String) (t : FSTree) (a : Cid)
    (args : List String) (c : Cid)
    (hmem : Event.add args c ∈ (patch_root_object s p t a).1) :
    "--pin=false" ∈ args :=
  (trace_pin_all (sizeOf t)).1 t le_rfl s p a args c hmem

/-- Witness for C8: the upload recorded in a concrete run carries the
pin-disabling flag. -/
theorem c8_witness : "--pin=false" ∈ ipfsAddArgs ["b.txt"] true := by
  have h1 : processEntry S1 [] "b.txt" (FSTree.file 7) ⟨[], some 5⟩
      = ([Event.add (ipfsAddArgs ["b.txt"] true) 42, Event.patch 5 "b.txt" 42],
         .error "nf") := by
    rw [processEntry_file_nomatch (by decide)
      (show S1.addFn (FSTree.file 7) true = .ok 42 from rfl)]
    simp [IPFSObject.add_link, S1]
  refine c8_theorem S1 [] (FSTree.dir [("b.txt", FSTree.file 7)]) 5
    (ipfsAddArgs ["b.txt"] true) 42 ?_
  rw [pro_dir_err (show S1.getLinks 5 = .ok [] from rfl)
    (processEntries_cons_err h1)]
  simp

/-- C9: the ogg/flac skip rule is applied before the entry's kind is
inspected: any local entry — file or directory — whose name has extension
`ogg` or `flac` and which has a same-named remote link is skipped entirely:
no recursion, no upload, no patch, object unchanged. -/
theorem c9_theorem (s : Store) (p : List String) (n : String) (sub : FSTree)
    (obj : IPFSObject)
    (hext : extensionOf n = some "ogg" ∨ extensionOf n = some "flac")
    (hsome : (obj.links.find? (fun l => l.name == n)).isSome = true) :
    processEntry s p n sub obj = ([], .ok obj) := by
  apply processEntry_skip _ hsome
  rcases hext with h | h <;> simp [isSkipExt, h]

/-- Witness for C9: a directory named `a.ogg` with a matching remote link is
skipped without recursing into it. -/
theorem c9_witness :
    processEntry S1 ["d"] "a.ogg" (FSTree.dir [("x", FSTree.file 3)]) rootObj
      = ([], .ok rootObj) :=
  c9_theorem S1 ["d"] "a.ogg" (FSTree.dir [("x", FSTree.file 3)]) rootObj
    (Or.inl (by decide)) (by decide)

/-- C10: whenever the required `--input` and `--data` arguments are provided
and parse, the input file exists and the season JSON validates, `main`
panics on `matches.values_of("dir").unwrap()` — `dir` is never registered
with the argument parser, so the lookup returns `None` — before any
directory is handed to `process`: the processing loop is unreachable from
the command line. -/
theorem c10_theorem (provided : String → Option (List String))
    (processResult : String → Except Err Unit) (vin vdd : List String)
    (hin : provided "input" = some vin)
    (hdd : provided "data-dir" = some vdd) :
    mainRun provided true (.ok ()) processResult
      = ([], MainOutcome.panicked "called Option::unwrap on a None value") := by
  simp [mainRun, clapValuesOf, registeredArgs, hin, hdd]

/-- Witness for C10: a fully well-formed command line still panics before
processing any directory. -/
theorem c10_witness :
    mainRun (fun nm => if nm = "input" then some ["season.json"]
        else if nm = "data-dir" then some ["data"] else some ["ignored"])
      true (.ok ()) (fun _ => .ok ())
      = ([], MainOutcome.panicked "called Option::unwrap on a None value") :=
  c10_theorem _ _ ["season.json"] ["data"] (by simp) (by simp)
